import Mathlib

/- Shallow embedding of the SPI-NOR flash programming engine of this
repository (`spi_flash_read.py` and `spi_flash_write.py`).

The transport (`BPIOSPI.transfer`) is modelled by a script: the list of
responses that the transport gives to successive response-carrying
transfers (those issued with a positive response-byte count).  `none`
models an absent/failed transfer result; `some d` models a present
response with payload `d`.  Write-only transfers ignore their result in
the source, so they consume no script entry; every transfer, write-only
or not, is recorded in the returned transfer log. -/

abbrev Byte := Nat

abbrev Response := Option (List Byte)

abbrev Script := List Response

/-- One transfer issued to the transport: the bytes written and the number
of response bytes requested. -/
structure Transfer where
  writeData : List Byte
  readBytes : Nat
deriving DecidableEq

/-- Outcomes of a flash session, one per distinct exit point of the source. -/
inductive SessionOutcome where
  | success
  | configurationFailed
  | transportError (address : Nat)
  | verificationMismatch (address : Nat)
  | sizeExceeded
deriving DecidableEq

/-- Read command built in `read_spi_flash` and in the verification loop of
`write_flash`: opcode 0x03 followed by the 24-bit address, high byte first. -/
def readCommand (address : Nat) : List Byte :=
  [0x03, address / 2 ^ 16 % 256, address / 2 ^ 8 % 256, address % 256]

/-- Page-program command built in `write_flash`: opcode 0x02, the 24-bit
address high byte first, then the page data. -/
def pageProgramCommand (address : Nat) (pageData : List Byte) : List Byte :=
  [0x02, address / 2 ^ 16 % 256, address / 2 ^ 8 % 256, address % 256] ++ pageData

/-- Write-enable command sent before chip erase and before each page program. -/
def writeEnableCommand : List Byte := [0x06]

/-- Chip-erase command sent by `erase_flash`. -/
def chipEraseCommand : List Byte := [0xC7]

/-- Read-status command sent by the busy-wait loops. -/
def readStatusCommand : List Byte := [0x05]

/-- The status poll transfer: read-status command, one response byte requested. -/
def statusPoll : Transfer := ⟨readStatusCommand, 1⟩

/-- Loop-exit test of the busy-wait loops: `status_data and
len(status_data) == 1` and bit 0 (WIP) clear.  An absent response and an
empty or over-long response both fail the test. -/
def wipClear : Response → Bool
  | none => false
  | some s => s.length == 1 && s.headD 0 % 2 == 0

/-- Busy-wait loop shared by `erase_flash` and `write_flash`: poll the
status register until `wipClear` holds.  Returns the list of polls issued
and the unconsumed script; `none` means the script ran out while the loop
was still polling (the loop in the source never exits on its own). -/
def waitUntilReady : Script → Option (List Transfer × Script)
  | [] => none
  | r :: rest =>
    if wipClear r then some ([statusPoll], rest)
    else (waitUntilReady rest).map fun p => (statusPoll :: p.1, p.2)

/-- `erase_flash`: write enable, chip erase, then busy-wait. -/
def erase_flash (script : Script) : Option (List Transfer × Script) :=
  (waitUntilReady script).map fun p =>
    (⟨writeEnableCommand, 0⟩ :: ⟨chipEraseCommand, 0⟩ :: p.1, p.2)

/-- Read loop of `read_spi_flash`: while `address < flash_size`, issue the
read command requesting `chunk_size` bytes; a present response of exactly
`chunk_size` bytes is appended to the sink and the address advances by
`chunk_size`; anything else ends the loop with the transport-error exit.
Returns the transfer log, the bytes written to the sink, and the outcome. -/
def readLoop (chunk_size flash_size : Nat) :
    Nat → Script → List Transfer × List Byte × SessionOutcome
  | address, [] =>
    if address < flash_size then
      ([⟨readCommand address, chunk_size⟩], [], .transportError address)
    else ([], [], .success)
  | address, r :: rest =>
    if address < flash_size then
      match r with
      | some d =>
        if d ≠ [] ∧ d.length = chunk_size then
          let res := readLoop chunk_size flash_size (address + chunk_size) rest
          (⟨readCommand address, chunk_size⟩ :: res.1, d ++ res.2.1, res.2.2)
        else ([⟨readCommand address, chunk_size⟩], [], .transportError address)
      | none => ([⟨readCommand address, chunk_size⟩], [], .transportError address)
    else ([], [], .success)

/-- `read_spi_flash`: configure the transport, then run the read loop from
address 0.  A falsy `configure` result exits before any transfer. -/
def read_spi_flash (configureOk : Bool) (flash_size chunk_size : Nat)
    (script : Script) : List Transfer × List Byte × SessionOutcome :=
  if configureOk then readLoop chunk_size flash_size 0 script
  else ([], [], .configurationFailed)

/-- Helper for `chunksOf`: split a list into chunks where the first chunk
holds up to `c + 1` elements and all later chunks up to `k + 1`. -/
def chunksGo (k : Nat) : Nat → List Byte → List (List Byte)
  | _, [] => []
  | 0, x :: xs => [x] :: chunksGo k k xs
  | c + 1, x :: xs =>
    match chunksGo k c xs with
    | [] => [[x]]
    | chunk :: rest => (x :: chunk) :: rest

/-- Split a list into consecutive chunks of `k + 1` elements, the last
chunk possibly shorter.  This is how the write and verification loops of
`write_flash` consume the source file (`f.read(n)` until exhaustion). -/
def chunksOf (k : Nat) (l : List Byte) : List (List Byte) := chunksGo k k l

/-- Pages of the source file as read by the write loop of `write_flash`
(`page_size = 256`). -/
def pagesOf (source : List Byte) : List (List Byte) := chunksOf 255 source

/-- Verification chunks of the source file as read by the verification
loop of `write_flash` (`verify_chunk = 512`). -/
def verifyChunksOf (source : List Byte) : List (List Byte) := chunksOf 511 source

/-- Write loop of `write_flash` over the pages of the source: per page,
write enable, page program, then busy-wait; the address advances by the
page length.  `none` means a busy-wait consumed the whole script. -/
def writePages : Nat → List (List Byte) → Script → Option (List Transfer × Script)
  | _, [], script => some ([], script)
  | address, page :: rest, script =>
    match waitUntilReady script with
    | none => none
    | some (polls, s1) =>
      match writePages (address + page.length) rest s1 with
      | none => none
      | some (log, s2) =>
        some (⟨writeEnableCommand, 0⟩ :: ⟨pageProgramCommand address page, 0⟩ ::
          (polls ++ log), s2)

/-- Verification loop of `write_flash`: per source chunk, issue the read
command requesting exactly the chunk's length; any response other than the
expected chunk bytes (absent included, since the source compares with `!=`)
ends the loop with the mismatch exit at the current address. -/
def verifyLoop : Nat → List (List Byte) → Script → List Transfer × SessionOutcome
  | _, [], _ => ([], .success)
  | address, c :: rest, script =>
    match script with
    | [] => ([⟨readCommand address, c.length⟩], .verificationMismatch address)
    | r :: s1 =>
      if r = some c then
        let res := verifyLoop (address + c.length) rest s1
        (⟨readCommand address, c.length⟩ :: res.1, res.2)
      else ([⟨readCommand address, c.length⟩], .verificationMismatch address)

/-- Verification pass of `write_flash` on its own: a fresh pass over the
source from address 0. -/
def verify_flash (source : List Byte) (script : Script) :
    List Transfer × SessionOutcome :=
  verifyLoop 0 (verifyChunksOf source) script

/-- `write_flash`: the paged write loop, then (optionally) the
verification pass over a fresh read of the source. -/
def write_flash (source : List Byte) (doVerify : Bool) (script : Script) :
    Option (List Transfer × SessionOutcome) :=
  match writePages 0 (pagesOf source) script with
  | none => none
  | some (wlog, rest) =>
    if doVerify then
      let v := verifyLoop 0 (verifyChunksOf source) rest
      some (wlog ++ v.1, v.2)
    else some (wlog, .success)

/-- `write_spi_flash`: size precondition first, then transport
configuration, then optional chip erase, then `write_flash`. -/
def write_spi_flash (source : List Byte) (flash_size : Nat)
    (configureOk erase_chip doVerify : Bool) (script : Script) :
    Option (List Transfer × SessionOutcome) :=
  if source.length > flash_size then some ([], .sizeExceeded)
  else if configureOk then
    if erase_chip then
      match erase_flash script with
      | none => none
      | some (elog, rest) =>
        match write_flash source doVerify rest with
        | none => none
        | some (wlog, outc) => some (elog ++ wlog, outc)
    else write_flash source doVerify script
  else some ([], .configurationFailed)

/-- Transfer log that the read loop produces on an all-success transport:
`n` read commands, each address the previous address plus the previous
chunk length, starting at `address`. -/
def expectedReadLog (chunk : Nat) : Nat → Nat → List Transfer
  | _, 0 => []
  | address, n + 1 =>
    ⟨readCommand address, chunk⟩ :: expectedReadLog chunk (address + chunk) n

/-- Transfer log that the write loop produces on an all-ready transport:
per page, write enable, page program, one status poll. -/
def pagesLogAux : Nat → List (List Byte) → List Transfer
  | _, [] => []
  | address, p :: rest =>
    ⟨writeEnableCommand, 0⟩ :: ⟨pageProgramCommand address p, 0⟩ :: statusPoll ::
      pagesLogAux (address + p.length) rest

/-- Transfer log that a full verification pass produces: one read command
per chunk, requesting exactly the chunk's length. -/
def verifyLogAux : Nat → List (List Byte) → List Transfer
  | _, [] => []
  | address, c :: rest =>
    ⟨readCommand address, c.length⟩ :: verifyLogAux (address + c.length) rest

/-- Concatenation of the payloads of a list of responses, in order. -/
def sinkOf (s : Script) : List Byte := (s.map fun r => r.getD []).flatten

/-- Number of chunks needed to cover `m` bytes in chunks of `c` bytes:
the ceiling of `m / c`. -/
def numChunks (c m : Nat) : Nat := (m + c - 1) / c

/-- A response that lets the read loop continue: present, with exactly
`chunk` payload bytes. -/
def okResponse (chunk : Nat) : Response → Bool
  | none => false
  | some d => d.length == chunk

/- Helper lemmas about chunking and chunk counts. -/

theorem chunksGo_cons (k : Nat) :
    ∀ (c : Nat) (x : Byte) (xs : List Byte),
      chunksGo k c (x :: xs) = (x :: xs.take c) :: chunksGo k k (xs.drop c) := by
  intro c
  induction c with
  | zero => intro x xs; simp [chunksGo]
  | succ c ih =>
    intro x xs
    cases xs with
    | nil => simp [chunksGo]
    | cons y ys => simp [chunksGo, ih y ys]

theorem chunksOf_cons (k : Nat) (x : Byte) (xs : List Byte) :
    chunksOf k (x :: xs) = (x :: xs.take k) :: chunksOf k (xs.drop k) := by
  simp [chunksOf, chunksGo_cons]

theorem chunksOf_nil (k : Nat) : chunksOf k [] = [] := by
  cases k <;> rfl

theorem chunksOf_flatten_bounded (k : Nat) :
    ∀ (n : Nat) (l : List Byte), l.length ≤ n → (chunksOf k l).flatten = l := by
  intro n
  induction n with
  | zero =>
    intro l hl
    have : l = [] := by cases l <;> simp_all
    subst this
    simp [chunksOf_nil]
  | succ n ih =>
    intro l hl
    cases l with
    | nil => simp [chunksOf_nil]
    | cons x xs =>
      simp only [List.length_cons] at hl
      rw [chunksOf_cons]
      simp only [List.flatten_cons]
      rw [ih (xs.drop k) (by simp; omega)]
      simp [List.take_append_drop]

theorem chunksOf_flatten (k : Nat) (l : List Byte) : (chunksOf k l).flatten = l :=
  chunksOf_flatten_bounded k l.length l le_rfl

theorem chunksOf_length_bounded (k : Nat) :
    ∀ (n : Nat) (l : List Byte), l.length ≤ n →
      (chunksOf k l).length = (l.length + k) / (k + 1) := by
  intro n
  induction n with
  | zero =>
    intro l hl
    have : l = [] := by cases l <;> simp_all
    subst this
    simp [chunksOf_nil]
    exact (Nat.div_eq_of_lt (by omega)).symm
  | succ n ih =>
    intro l hl
    cases l with
    | nil =>
      simp [chunksOf_nil]
      exact (Nat.div_eq_of_lt (by omega)).symm
    | cons x xs =>
      simp only [List.length_cons] at hl
      rw [chunksOf_cons]
      simp only [List.length_cons]
      rw [ih (xs.drop k) (by simp; omega)]
      simp only [List.length_drop]
      rcases le_or_lt k xs.length with h | h
      · have h1 : xs.length - k + k = xs.length := by omega
        have h2 : xs.length + 1 + k = xs.length + (k + 1) := by omega
        rw [h1, h2, Nat.add_div_right _ (by omega : 0 < k + 1)]
      · have h1 : xs.length - k = 0 := by omega
        have h2 : (0 + k) / (k + 1) = 0 := Nat.div_eq_of_lt (by omega)
        have h3 : xs.length + 1 + k = xs.length + (k + 1) := by omega
        have h4 : xs.length / (k + 1) = 0 := Nat.div_eq_of_lt (by omega)
        rw [h1, h2, h3, Nat.add_div_right _ (by omega : 0 < k + 1), h4]

theorem chunksOf_length (k : Nat) (l : List Byte) :
    (chunksOf k l).length = (l.length + k) / (k + 1) :=
  chunksOf_length_bounded k l.length l le_rfl

theorem chunksOf_mem_bounded (k : Nat) :
    ∀ (n : Nat) (l : List Byte), l.length ≤ n →
      ∀ c ∈ chunksOf k l, 0 < c.length ∧ c.length ≤ k + 1 := by
  intro n
  induction n with
  | zero =>
    intro l hl
    have : l = [] := by cases l <;> simp_all
    subst this
    simp [chunksOf_nil]
  | succ n ih =>
    intro l hl c hc
    cases l with
    | nil => simp [chunksOf_nil] at hc
    | cons x xs =>
      simp only [List.length_cons] at hl
      rw [chunksOf_cons] at hc
      rcases List.mem_cons.mp hc with h | h
      · subst h
        simp only [List.length_cons, List.length_take]
        omega
      · exact ih (xs.drop k) (by simp; omega) c h

theorem chunksOf_mem (k : Nat) (l : List Byte) :
    ∀ c ∈ chunksOf k l, 0 < c.length ∧ c.length ≤ k + 1 :=
  chunksOf_mem_bounded k l.length l le_rfl

theorem numChunks_zero (c : Nat) (hc : 0 < c) : numChunks c 0 = 0 := by
  unfold numChunks
  exact Nat.div_eq_of_lt (by omega)

theorem numChunks_step (c m : Nat) (hc : 0 < c) (hm : 0 < m) :
    numChunks c m = numChunks c (m - c) + 1 := by
  unfold numChunks
  rcases le_or_lt c m with h | h
  · have h1 : m + c - 1 = (m - c + c - 1) + c := by omega
    rw [h1, Nat.add_div_right _ hc]
  · have h1 : m - c = 0 := by omega
    have h2 : m + c - 1 = (m - 1) + c := by omega
    rw [h1, h2, Nat.add_div_right _ hc]
    have h3 : (m - 1) / c = 0 := Nat.div_eq_of_lt (by omega)
    have h4 : (0 + c - 1) / c = 0 := Nat.div_eq_of_lt (by omega)
    omega

/- Helper lemmas about the read loop. -/

theorem sinkOf_nil : sinkOf [] = [] := rfl

theorem sinkOf_cons (r : Response) (s : Script) :
    sinkOf (r :: s) = r.getD [] ++ sinkOf s := by
  simp [sinkOf]

theorem sinkOf_take_length (chunk : Nat) :
    ∀ (script : Script) (n : Nat),
      (∀ r ∈ script, okResponse chunk r = true) → n ≤ script.length →
      (sinkOf (script.take n)).length = chunk * n := by
  intro script
  induction script with
  | nil => intro n _ hn; simp at hn; subst hn; simp [sinkOf_nil]
  | cons r rest ih =>
    intro n hok hn
    cases n with
    | zero => simp [sinkOf_nil]
    | succ n =>
      simp only [List.take_succ_cons, sinkOf_cons, List.length_append]
      have hr := hok r (by simp)
      have hd : (r.getD []).length = chunk := by
        cases r with
        | none => simp [okResponse] at hr
        | some d => simpa [okResponse] using hr
      rw [hd, ih n (fun x hx => hok x (by simp [hx])) (by simpa using hn)]
      ring

theorem expectedReadLog_readBytes (chunk : Nat) :
    ∀ (n address : Nat), ∀ t ∈ expectedReadLog chunk address n, t.readBytes = chunk := by
  intro n
  induction n with
  | zero => intro address t ht; simp [expectedReadLog] at ht
  | succ n ih =>
    intro address t ht
    rw [expectedReadLog] at ht
    rcases List.mem_cons.mp ht with h | h
    · subst h; rfl
    · exact ih (address + chunk) t h

theorem readLoop_ok (chunk : Nat) (hc : 0 < chunk) :
    ∀ (script : Script) (flash address : Nat),
      (∀ r ∈ script, okResponse chunk r = true) →
      flash ≤ address + chunk * script.length →
      readLoop chunk flash address script =
        (expectedReadLog chunk address (numChunks chunk (flash - address)),
         sinkOf (script.take (numChunks chunk (flash - address))),
         .success) := by
  intro script
  induction script with
  | nil =>
    intro flash address _ hcov
    simp only [List.length_nil, Nat.mul_zero, Nat.add_zero] at hcov
    have h0 : flash - address = 0 := by omega
    rw [h0, numChunks_zero chunk hc]
    simp [readLoop, expectedReadLog, sinkOf_nil, Nat.not_lt.mpr hcov]
  | cons r rest ih =>
    intro flash address hok hcov
    by_cases hlt : address < flash
    · obtain ⟨d, rfl⟩ : ∃ d, r = some d := by
        cases r with
        | none =>
          have := hok none (by simp)
          simp [okResponse] at this
        | some d => exact ⟨d, rfl⟩
      have hlen : d.length = chunk := by
        have := hok (some d) (by simp)
        simpa [okResponse] using this
      have hne : d ≠ [] := by
        intro h
        rw [h] at hlen
        simp at hlen
        omega
      have hcov2 : flash ≤ address + chunk + chunk * rest.length := by
        simp only [List.length_cons, Nat.mul_succ] at hcov
        omega
      have hstep : numChunks chunk (flash - address) =
          numChunks chunk (flash - (address + chunk)) + 1 := by
        have h1 : flash - (address + chunk) = (flash - address) - chunk := by omega
        rw [h1]
        exact numChunks_step chunk (flash - address) hc (by omega)
      have hcond : d ≠ [] ∧ d.length = chunk := ⟨hne, hlen⟩
      simp only [readLoop, if_pos hlt, if_pos hcond]
      rw [ih flash (address + chunk) (fun x hx => hok x (by simp [hx])) hcov2,
        hstep, expectedReadLog]
      simp [sinkOf_cons]
    · have h0 : flash - address = 0 := by omega
      simp only [readLoop, if_neg hlt]
      rw [h0, numChunks_zero chunk hc]
      simp [expectedReadLog, sinkOf_nil]

/- Helper lemmas about the busy-wait and the write loop. -/

theorem waitUntilReady_polls :
    ∀ (script : Script) (p : List Transfer × Script),
      waitUntilReady script = some p → ∀ t ∈ p.1, t = statusPoll := by
  intro script
  induction script with
  | nil => intro p hp; exact absurd hp (by simp [waitUntilReady])
  | cons r rest ih =>
    intro p hp t ht
    rw [waitUntilReady] at hp
    by_cases hw : wipClear r = true
    · rw [if_pos hw] at hp
      cases hp
      simpa using ht
    · rw [if_neg hw] at hp
      cases hq : waitUntilReady rest with
      | none => rw [hq] at hp; simp at hp
      | some q =>
        rw [hq] at hp
        simp only [Option.map_some'] at hp
        injection hp with hp
        subst hp
        rcases List.mem_cons.mp ht with h | h
        · exact h
        · exact ih q hq t h

theorem waitUntilReady_ready (r : Response) (rest : Script) (hw : wipClear r = true) :
    waitUntilReady (r :: rest) = some ([statusPoll], rest) := by
  simp [waitUntilReady, hw]

theorem writePages_ok :
    ∀ (pages : List (List Byte)) (address : Nat) (script : Script),
      (∀ r ∈ script, wipClear r = true) → pages.length ≤ script.length →
      writePages address pages script =
        some (pagesLogAux address pages, script.drop pages.length) := by
  intro pages
  induction pages with
  | nil => intro address script _ _; simp [writePages, pagesLogAux]
  | cons p rest ih =>
    intro address script hok hlen
    cases script with
    | nil => simp at hlen
    | cons r s1 =>
      have hw := waitUntilReady_ready r s1 (hok r (by simp))
      have hrec := ih (address + p.length) s1 (fun x hx => hok x (by simp [hx]))
        (by simpa using hlen)
      simp only [writePages, hw, hrec]
      simp [pagesLogAux]

/-- Test recognising a page-program transfer in the log (opcode 0x02). -/
def isProgramTransfer (t : Transfer) : Bool := t.writeData.headD 0 == 0x02

theorem pagesLogAux_program_count :
    ∀ (pages : List (List Byte)) (address : Nat),
      (pagesLogAux address pages).countP isProgramTransfer = pages.length := by
  intro pages
  induction pages with
  | nil => intro address; simp [pagesLogAux]
  | cons p rest ih =>
    intro address
    rw [pagesLogAux]
    simp only [List.countP_cons, ih (address + p.length)]
    simp [isProgramTransfer, pageProgramCommand, writeEnableCommand, statusPoll,
      readStatusCommand]

/- Helper lemmas about the verification loop. -/

theorem verifyLoop_matching :
    ∀ (chunks : List (List Byte)) (address : Nat) (extra : Script),
      verifyLoop address chunks (chunks.map some ++ extra) =
        (verifyLogAux address chunks, .success) := by
  intro chunks
  induction chunks with
  | nil => intro address extra; simp [verifyLoop, verifyLogAux]
  | cons c rest ih =>
    intro address extra
    simp only [List.map_cons, List.cons_append, verifyLoop]
    rw [ih (address + c.length) extra]
    simp [verifyLogAux]

theorem verifyLogAux_readBytes_sum :
    ∀ (chunks : List (List Byte)) (address : Nat),
      ((verifyLogAux address chunks).map fun t => t.readBytes).sum =
        (chunks.map List.length).sum := by
  intro chunks
  induction chunks with
  | nil => intro address; simp [verifyLogAux]
  | cons c rest ih =>
    intro address
    rw [verifyLogAux]
    simp [ih (address + c.length)]

theorem verifyLogAux_chunksOf_bounded (k : Nat) :
    ∀ (n : Nat) (l : List Byte) (a : Nat), l.length ≤ n →
      verifyLogAux a (chunksOf k l) =
        (List.range (numChunks (k + 1) l.length)).map
          (fun i => ⟨readCommand (a + (k + 1) * i),
            min (k + 1) (l.length - (k + 1) * i)⟩) := by
  intro n
  induction n with
  | zero =>
    intro l a hl
    have : l = [] := by cases l <;> simp_all
    subst this
    simp [chunksOf_nil, verifyLogAux, numChunks_zero (k + 1) (by omega)]
  | succ n ih =>
    intro l a hl
    cases l with
    | nil => simp [chunksOf_nil, verifyLogAux, numChunks_zero (k + 1) (by omega)]
    | cons x xs =>
      simp only [List.length_cons] at hl ⊢
      rw [chunksOf_cons, verifyLogAux]
      have hpos : 0 < xs.length + 1 := by omega
      rw [numChunks_step (k + 1) (xs.length + 1) (by omega) hpos,
        List.range_succ_eq_map, List.map_cons, List.map_map]
      have hsub : xs.length + 1 - (k + 1) = xs.length - k := by omega
      rw [hsub]
      have htail : verifyLogAux (a + (x :: xs.take k).length) (chunksOf k (xs.drop k)) =
          (List.range (numChunks (k + 1) (xs.length - k))).map
            (fun i => ⟨readCommand (a + (x :: xs.take k).length + (k + 1) * i),
              min (k + 1) (xs.length - k - (k + 1) * i)⟩) := by
        have := ih (xs.drop k) (a + (x :: xs.take k).length) (by simp; omega)
        simpa [List.length_drop] using this
      rw [htail]
      congr 1
      · simp only [Nat.mul_zero, Nat.add_zero, Nat.sub_zero, List.length_cons,
          List.length_take]
        congr 1
        omega
      · apply List.map_congr_left
        intro i hi
        have him : i < numChunks (k + 1) (xs.length - k) := List.mem_range.mp hi
        have hgt : k < xs.length := by
          by_contra hle
          have h0 : xs.length - k = 0 := by omega
          rw [h0, numChunks_zero (k + 1) (by omega)] at him
          omega
        simp only [Function.comp_apply, Nat.succ_eq_add_one]
        have hA : a + (k + 1) * (i + 1) =
            a + (x :: xs.take k).length + (k + 1) * i := by
          simp only [List.length_cons, List.length_take]
          rw [Nat.mul_succ]
          omega
        have hB : xs.length + 1 - (k + 1) * (i + 1) =
            xs.length - k - (k + 1) * i := by
          rw [Nat.mul_succ]
          omega
        rw [hA, hB]

theorem verifyLogAux_chunksOf (k : Nat) (l : List Byte) (a : Nat) :
    verifyLogAux a (chunksOf k l) =
      (List.range (numChunks (k + 1) l.length)).map
        (fun i => ⟨readCommand (a + (k + 1) * i),
          min (k + 1) (l.length - (k + 1) * i)⟩) :=
  verifyLogAux_chunksOf_bounded k l.length l a le_rfl

theorem verifyLoop_outcomes :
    ∀ (chunks : List (List Byte)) (address : Nat) (script : Script),
      (verifyLoop address chunks script).2 = .success ∨
        ∃ x, (verifyLoop address chunks script).2 = .verificationMismatch x := by
  intro chunks
  induction chunks with
  | nil => intro address script; left; rfl
  | cons c rest ih =>
    intro address script
    cases script with
    | nil => right; exact ⟨address, rfl⟩
    | cons r s1 =>
      by_cases hr : r = some c
      · simp only [verifyLoop, if_pos hr]
        exact ih (address + c.length) s1
      · simp only [verifyLoop, if_neg hr]
        right; exact ⟨address, rfl⟩

/- Claim theorems. -/

/-- C1, counterexample: the claim says the busy-wait fails immediately with
a transport error whenever the transport returns Absent and never retries
after an Absent response.  On the script whose first status response is
absent and whose second is a ready status byte, the busy-wait of the source
issues a second poll (it retries) and completes successfully. -/
theorem waitUntilReady_absent_cex :
    waitUntilReady [none, some [0]] = some ([statusPoll, statusPoll], []) := by
  decide

/-- C1 (amended): the busy-wait sends the read-status command requesting
one response byte on every poll; when the transport returns Absent it does
not fail — it sleeps and polls again, behaving on the rest of the script
exactly as if the absent response had not happened (one extra poll in the
log).  It never produces a transport-error outcome. -/
theorem waitUntilReady_absent_retries (rest script : Script)
    (p : List Transfer × Script) (hp : waitUntilReady script = some p)
    (t : Transfer) (ht : t ∈ p.1) :
    waitUntilReady (none :: rest) =
      (waitUntilReady rest).map (fun q => (statusPoll :: q.1, q.2)) ∧
    t = statusPoll := by
  constructor
  · simp [waitUntilReady, wipClear]
  · exact waitUntilReady_polls script p hp t ht

theorem waitUntilReady_absent_retries_witness :
    waitUntilReady [none, some [0]] =
      (waitUntilReady [some [0]]).map (fun q => (statusPoll :: q.1, q.2)) ∧
    statusPoll = statusPoll :=
  waitUntilReady_absent_retries [some [0]] [some [0]] ([statusPoll], [])
    (by decide) statusPoll (by decide)

/-- C2, counterexample: the claim says every read command requests
`min(readChunkBytes, totalSizeBytes - address)` bytes and the sink receives
exactly `totalSizeBytes` bytes.  With `totalSizeBytes = 3` and
`readChunkBytes = 2` on an all-success transport, the second read (at
address 2) requests 2 bytes instead of `min 2 (3 - 2) = 1`, and the sink
receives 4 bytes, not 3. -/
theorem readAll_min_request_cex :
    read_spi_flash true 3 2 [some [7, 7], some [7, 7]] =
      ([⟨readCommand 0, 2⟩, ⟨readCommand 2, 2⟩], [7, 7, 7, 7], .success) ∧
    ¬ (2 = min 2 (3 - 2)) := by
  decide

/-- C2 (amended): every read command issued by `read_spi_flash` requests
exactly `readChunkBytes` bytes regardless of how many bytes remain, so on
an all-success transport the sink receives
`readChunkBytes * ceil(totalSizeBytes / readChunkBytes)` bytes — equal to
`totalSizeBytes` only when `totalSizeBytes` is a multiple of
`readChunkBytes`; when it is not, the final read extends past the end of
the address space. -/
theorem readAll_requests_full_chunk (flash chunk : Nat) (script : Script)
    (hc : 0 < chunk) (hok : ∀ r ∈ script, okResponse chunk r = true)
    (hcov : flash ≤ chunk * script.length) (t : Transfer)
    (ht : t ∈ expectedReadLog chunk 0 (numChunks chunk flash)) :
    read_spi_flash true flash chunk script =
      (expectedReadLog chunk 0 (numChunks chunk flash),
       sinkOf (script.take (numChunks chunk flash)), .success) ∧
    t.readBytes = chunk ∧
    (sinkOf (script.take (numChunks chunk flash))).length =
      chunk * numChunks chunk flash := by
  have hcov0 : flash ≤ 0 + chunk * script.length := by omega
  have hnle : numChunks chunk flash ≤ script.length := by
    unfold numChunks
    have h2 : (flash + chunk - 1) / chunk < script.length + 1 := by
      rw [Nat.div_lt_iff_lt_mul hc, Nat.succ_mul]
      rw [Nat.mul_comm] at hcov
      omega
    omega
  refine ⟨?_, expectedReadLog_readBytes chunk _ 0 t ht, ?_⟩
  · have h := readLoop_ok chunk hc script flash 0 hok hcov0
    rw [Nat.sub_zero] at h
    simpa [read_spi_flash] using h
  · exact sinkOf_take_length chunk script _ hok hnle

theorem readAll_requests_full_chunk_witness :
    (read_spi_flash true 3 2 [some [7, 7], some [7, 7]] =
      (expectedReadLog 2 0 (numChunks 2 3),
       sinkOf ([some [7, 7], some [7, 7]].take (numChunks 2 3)), .success) ∧
    (Transfer.mk (readCommand 0) 2).readBytes = 2 ∧
    (sinkOf ([some [7, 7], some [7, 7]].take (numChunks 2 3))).length =
      2 * numChunks 2 3) :=
  readAll_requests_full_chunk 3 2 [some [7, 7], some [7, 7]] (by decide)
    (by decide) (by decide) (Transfer.mk (readCommand 0) 2) (by decide)

/-- C4: when the source is larger than the flash capacity,
`write_spi_flash` returns the size-exceeded outcome with an empty transfer
log, whatever the configure result and the erase/verify flags — the check
happens before the transport is configured and before any transfer. -/
theorem writeAll_size_exceeded (source : List Byte) (capacity : Nat)
    (configureOk eraseChip doVerify : Bool) (script : Script)
    (hgt : capacity < source.length) :
    write_spi_flash source capacity configureOk eraseChip doVerify script =
      some ([], .sizeExceeded) := by
  simp [write_spi_flash, hgt]

theorem writeAll_size_exceeded_witness :
    write_spi_flash [0xAB] 0 false true true [] = some ([], .sizeExceeded) :=
  writeAll_size_exceeded [0xAB] 0 false true true [] (by decide)

/-- C3, counterexample: the claim says an Absent transfer result during
verification yields a transport error at that address, and a verification
mismatch only when present bytes differ.  On a one-byte source whose single
verification read gets an absent response, the source takes the
`Verification failed` exit: the outcome is the mismatch outcome at address
0, not a transport error. -/
theorem verify_absent_mismatch_cex :
    verify_flash [0xAB] [none] =
      ([⟨readCommand 0, 1⟩], .verificationMismatch 0) ∧
    ¬ (verify_flash [0xAB] [none]).2 = SessionOutcome.transportError 0 := by
  decide

/-- C3 (amended): the verification pass has a single failure outcome.  It
compares the raw transfer result against the expected chunk, so any result
other than exactly the expected bytes — an absent result included — is
reported as `VerificationMismatch` at the chunk's address; the pass never
produces a `TransportError`, and transport failures and content mismatches
are therefore conflated. -/
theorem verify_outcomes_conflated (address : Nat) (chunks : List (List Byte))
    (script : Script) (a2 : Nat) (c : List Byte) (cs : List (List Byte))
    (s : Script) :
    ((verifyLoop address chunks script).2 = .success ∨
      ∃ x, (verifyLoop address chunks script).2 = .verificationMismatch x) ∧
    verifyLoop a2 (c :: cs) (none :: s) =
      ([⟨readCommand a2, c.length⟩], .verificationMismatch a2) := by
  refine ⟨verifyLoop_outcomes chunks address script, ?_⟩
  simp [verifyLoop]

/-- C5: with the source no larger than the capacity and a transport whose
status responses all report the WIP bit clear, `write_spi_flash` (no erase,
no verify) succeeds and its transfer log is exactly, per source page, a
write-enable, the page-program command, and one status poll (the busy-wait
that observed WIP clear); the number of page-program commands in the log is
`ceil(sourceLength / 256)`; every page is nonempty and at most 256 bytes
(only the last may be shorter). -/
theorem writeAll_page_structure (source : List Byte) (capacity : Nat)
    (script : Script) (hsize : source.length ≤ capacity)
    (hready : ∀ r ∈ script, wipClear r = true)
    (hlen : (pagesOf source).length ≤ script.length)
    (p : List Byte) (hp : p ∈ pagesOf source) :
    write_spi_flash source capacity true false false script =
      some (pagesLogAux 0 (pagesOf source), .success) ∧
    (pagesLogAux 0 (pagesOf source)).countP isProgramTransfer =
      (source.length + 255) / 256 ∧
    0 < p.length ∧ p.length ≤ 256 := by
  refine ⟨?_, ?_, chunksOf_mem 255 source p hp⟩
  · have hw := writePages_ok (pagesOf source) 0 script hready hlen
    simp only [write_spi_flash, if_neg (by omega : ¬ source.length > capacity),
      if_pos rfl, if_neg (by simp : ¬ false = true), write_flash, hw]
    simp
  · rw [pagesLogAux_program_count]
    exact chunksOf_length 255 source

theorem writeAll_page_structure_witness :
    (write_spi_flash [1, 2, 3] 10 true false false [some [0]] =
      some (pagesLogAux 0 (pagesOf [1, 2, 3]), .success) ∧
    (pagesLogAux 0 (pagesOf [1, 2, 3])).countP isProgramTransfer =
      (([1, 2, 3] : List Byte).length + 255) / 256 ∧
    0 < ([1, 2, 3] : List Byte).length ∧ ([1, 2, 3] : List Byte).length ≤ 256) :=
  writeAll_page_structure [1, 2, 3] 10 [some [0]] (by decide) (by decide)
    (by decide) [1, 2, 3] (by decide)

/-- C6: over a geometry whose total size is an exact multiple
`k * readChunkBytes` (`k ≥ 1`) and a transport on which every read returns
exactly `readChunkBytes` bytes, `read_spi_flash` issues exactly `k` read
commands whose addresses start at 0 and advance by the previous chunk
length each time (`expectedReadLog`), succeeds, and the sink is the
concatenation of the returned chunks in address order, exactly
`totalSizeBytes` bytes. -/
theorem readAll_exact_multiple (chunk k : Nat) (script : Script)
    (hc : 0 < chunk) (hk : 1 ≤ k) (hlen : script.length = k)
    (hok : ∀ r ∈ script, okResponse chunk r = true) :
    read_spi_flash true (k * chunk) chunk script =
      (expectedReadLog chunk 0 k, sinkOf script, .success) ∧
    (sinkOf script).length = k * chunk := by
  have hn : numChunks chunk (k * chunk) = k := by
    unfold numChunks
    have h1 : k * chunk + chunk - 1 = chunk * k + (chunk - 1) := by
      rw [Nat.mul_comm]
      omega
    rw [h1, Nat.mul_add_div hc, Nat.div_eq_of_lt (by omega)]
    omega
  have hcov : k * chunk ≤ 0 + chunk * script.length := by
    rw [Nat.zero_add, hlen, Nat.mul_comm]
  have h := readLoop_ok chunk hc script (k * chunk) 0 hok hcov
  rw [Nat.sub_zero, hn] at h
  have htake : script.take k = script := by
    rw [← hlen]
    exact List.take_length script
  rw [htake] at h
  constructor
  · simpa [read_spi_flash] using h
  · have := sinkOf_take_length chunk script k hok (by omega)
    rw [htake] at this
    rw [this, Nat.mul_comm]

theorem readAll_exact_multiple_witness :
    (read_spi_flash true (2 * 2) 2 [some [1, 2], some [3, 4]] =
      (expectedReadLog 2 0 2, sinkOf [some [1, 2], some [3, 4]], .success) ∧
    (sinkOf [some [1, 2], some [3, 4]]).length = 2 * 2) :=
  readAll_exact_multiple 2 2 [some [1, 2], some [3, 4]] (by decide) (by decide)
    (by decide) (by decide)

/-- C7: when the transport's configure returns false, `read_spi_flash` and
`write_spi_flash` (the latter with any erase and verify flags, so also when
a chip erase was requested) return the configuration-failed outcome with an
empty transfer log: no transfer is issued. -/
theorem configure_failed_no_transfers (flash chunk : Nat) (rscript : Script)
    (source : List Byte) (capacity : Nat) (eraseChip doVerify : Bool)
    (wscript : Script) (hsize : source.length ≤ capacity) :
    read_spi_flash false flash chunk rscript = ([], [], .configurationFailed) ∧
    write_spi_flash source capacity false eraseChip doVerify wscript =
      some ([], .configurationFailed) := by
  constructor
  · simp [read_spi_flash]
  · simp [write_spi_flash, Nat.not_lt.mpr hsize]

theorem configure_failed_no_transfers_witness :
    (read_spi_flash false 4096 512 [some [0]] =
      ([], [], .configurationFailed) ∧
    write_spi_flash [1, 2] 16 false true true [some [0]] =
      some ([], .configurationFailed)) :=
  configure_failed_no_transfers 4096 512 [some [0]] [1, 2] 16 true true
    [some [0]] (by decide)

/-- C8: for every address below 2^24 the read command is opcode 0x03
followed by the three address bytes, high byte first; those three bytes
really are the big-endian decomposition of the address (each below 256 and
recombining to the address); the page-program command is opcode 0x02, the
same three address bytes, then the page data; and write enable, chip erase
and read status are the single bytes 0x06, 0xC7 and 0x05. -/
theorem command_encoding (a : Nat) (d : List Byte) (ha : a < 2 ^ 24) :
    readCommand a = [0x03, a / 2 ^ 16 % 256, a / 2 ^ 8 % 256, a % 256] ∧
    (a / 2 ^ 16 % 256) * 2 ^ 16 + (a / 2 ^ 8 % 256) * 2 ^ 8 + a % 256 = a ∧
    a / 2 ^ 16 % 256 < 256 ∧ a / 2 ^ 8 % 256 < 256 ∧ a % 256 < 256 ∧
    pageProgramCommand a d =
      0x02 :: (a / 2 ^ 16 % 256) :: (a / 2 ^ 8 % 256) :: (a % 256) :: d ∧
    writeEnableCommand = [0x06] ∧ chipEraseCommand = [0xC7] ∧
    readStatusCommand = [0x05] := by
  refine ⟨rfl, ?_, ?_, ?_, ?_, rfl, rfl, rfl, rfl⟩ <;> omega

theorem command_encoding_witness :
    (readCommand 0x123456 =
      [0x03, 0x123456 / 2 ^ 16 % 256, 0x123456 / 2 ^ 8 % 256, 0x123456 % 256] ∧
    (0x123456 / 2 ^ 16 % 256) * 2 ^ 16 + (0x123456 / 2 ^ 8 % 256) * 2 ^ 8 +
      0x123456 % 256 = 0x123456 ∧
    0x123456 / 2 ^ 16 % 256 < 256 ∧ 0x123456 / 2 ^ 8 % 256 < 256 ∧
    0x123456 % 256 < 256 ∧
    pageProgramCommand 0x123456 [0xAA] =
      0x02 :: (0x123456 / 2 ^ 16 % 256) :: (0x123456 / 2 ^ 8 % 256) ::
        (0x123456 % 256) :: [0xAA] ∧
    writeEnableCommand = [0x06] ∧ chipEraseCommand = [0xC7] ∧
    readStatusCommand = [0x05]) :=
  command_encoding 0x123456 [0xAA] (by decide)

/-- C9: whenever `erase_flash` completes, its transfer log starts with the
write-enable command immediately followed by the chip-erase command — no
other transfer between them — and everything after those two transfers is a
status poll of the busy-wait. -/
theorem erase_enable_before_erase (script : Script)
    (p : List Transfer × Script) (hp : erase_flash script = some p)
    (t : Transfer) (ht : t ∈ p.1.drop 2) :
    p.1.take 2 = [⟨writeEnableCommand, 0⟩, ⟨chipEraseCommand, 0⟩] ∧
    t = statusPoll := by
  unfold erase_flash at hp
  cases hq : waitUntilReady script with
  | none => rw [hq] at hp; simp at hp
  | some q =>
    rw [hq] at hp
    simp only [Option.map_some'] at hp
    injection hp with hp
    subst hp
    exact ⟨rfl, waitUntilReady_polls script q hq t (by simpa using ht)⟩

theorem erase_enable_before_erase_witness :
    (([⟨writeEnableCommand, 0⟩, ⟨chipEraseCommand, 0⟩, statusPoll, statusPoll],
        ([] : Script)).1.take 2 =
      [⟨writeEnableCommand, 0⟩, ⟨chipEraseCommand, 0⟩] ∧
    statusPoll = statusPoll) :=
  erase_enable_before_erase [some [1], some [0]]
    ([⟨writeEnableCommand, 0⟩, ⟨chipEraseCommand, 0⟩, statusPoll, statusPoll], [])
    (by decide) statusPoll (by decide)

/-- C10: a full verification pass reads, chunk by chunk, exactly what the
source provides: the i-th read command is at address `512 * i` and requests
`min 512 (sourceLength - 512 * i)` bytes — the number of bytes obtained
from the source for that chunk, so the final read never requests bytes
beyond the source length — and the requested sizes sum to exactly
`sourceLength`, the verified region starting at address 0.  The first
conjunct shows this log is what the pass actually issues when every read
returns the expected bytes. -/
theorem verify_request_sizes (source : List Byte) :
    verify_flash source ((verifyChunksOf source).map some) =
      (verifyLogAux 0 (verifyChunksOf source), .success) ∧
    verifyLogAux 0 (verifyChunksOf source) =
      (List.range (numChunks 512 source.length)).map
        (fun i => ⟨readCommand (512 * i), min 512 (source.length - 512 * i)⟩) ∧
    ((verifyLogAux 0 (verifyChunksOf source)).map fun t => t.readBytes).sum =
      source.length := by
  refine ⟨?_, ?_, ?_⟩
  · unfold verify_flash
    have h := verifyLoop_matching (verifyChunksOf source) 0 []
    simpa using h
  · have h := verifyLogAux_chunksOf 511 source 0
    simpa using h
  · rw [verifyLogAux_readBytes_sum]
    have h1 : ((verifyChunksOf source).map List.length).sum =
        (verifyChunksOf source).flatten.length := by
      simp [List.length_flatten]
    rw [h1]
    unfold verifyChunksOf
    rw [chunksOf_flatten]
